import Mathlib

/-!
Verification of the entity-resolution core of the repository
(`backend/services/entity_resolution_service.py`) against its
natural-language specification.

The Python service is shallowly embedded: the MongoDB `entities`
collection becomes an insertion-ordered list of `CanonicalEntity`
records, each MongoDB primitive (`find_one`, `find`, `insert_one`,
`update_one` with `$push`/`$set`/`$inc`/`$addToSet`) becomes an explicit
function on that list, timestamps (`datetime.utcnow()`) become `Nat`
parameters, and `uuid.uuid4()` becomes an explicitly supplied fresh
`Nat` identifier.  Python string operations (`strip`, `title`,
`isupper`, `lower`, `split`) are embedded character-faithfully for
ASCII text; non-ASCII characters pass through the case maps unchanged.
`rapidfuzz.fuzz.token_sort_ratio` is embedded as the normalized Indel
similarity of the token-sorted strings (`200 * lcs / (len1 + len2)`),
and `rapidfuzz.process.extractOne` as a left fold that keeps the
first candidate attaining the maximal score.  Scores are `ℚ`.

Fields of the Mongo documents that the resolution path never reads and
only ever writes as constants (`email`, `phone`, `company`, `title`,
`metadata`, all `None`/empty at creation and never touched afterwards)
are omitted from the embedded record; `created_at`/`updated_at`, which
the code does write, are kept.  `processing_time_seconds` (wall-clock)
and the derived `confidence_scores` map of `EntityResolutionResult`
are likewise omitted.
-/

namespace EntityRes

/-! ## Character-level embedding of the Python string primitives -/

/-- Whitespace recognised by Python's `str.strip` / `str.split`
(space, tab, newline, carriage return, vertical tab, form feed). -/
def isSpaceChar (c : Char) : Bool :=
  decide (c.toNat = 32 ∨ c.toNat = 9 ∨ c.toNat = 10 ∨ c.toNat = 13 ∨
    c.toNat = 11 ∨ c.toNat = 12)

/-- ASCII uppercase letter test (`A`-`Z`). -/
def isUpperChar (c : Char) : Bool :=
  decide (65 ≤ c.toNat ∧ c.toNat ≤ 90)

/-- ASCII lowercase letter test (`a`-`z`). -/
def isLowerChar (c : Char) : Bool :=
  decide (97 ≤ c.toNat ∧ c.toNat ≤ 122)

/-- ASCII letter test: the cased characters of the embedding. -/
def isAlphaChar (c : Char) : Bool :=
  isUpperChar c || isLowerChar c

/-- ASCII lower-casing of a single character, as Python's case maps act
on ASCII text; other characters are unchanged. -/
def lowerChar (c : Char) : Char :=
  if isUpperChar c then Char.ofNat (c.toNat + 32) else c

/-- ASCII upper-casing of a single character. -/
def upperChar (c : Char) : Char :=
  if isLowerChar c then Char.ofNat (c.toNat - 32) else c

/-- Drop leading whitespace (the left half of Python's `str.strip`). -/
def dropLead (l : List Char) : List Char :=
  l.dropWhile isSpaceChar

/-- Drop trailing whitespace (the right half of Python's `str.strip`). -/
def dropTrail : List Char → List Char
  | [] => []
  | c :: cs =>
      let r := dropTrail cs
      if r.isEmpty && isSpaceChar c then [] else c :: r

/-- Embedding of Python's `str.strip()`. -/
def pyStrip (l : List Char) : List Char :=
  dropTrail (dropLead l)

/-- Embedding of Python's `str.isupper()`: at least one cased character
and no lowercase character. -/
def pyIsUpper (l : List Char) : Bool :=
  l.any isAlphaChar && l.all (fun c => !isLowerChar c)

/-- One character of Python's `str.title()`: a letter is lowercased
when the previous character was cased, uppercased otherwise; non-letters
pass through. -/
def titleChar (prevCased : Bool) (c : Char) : Char :=
  if isAlphaChar c then (if prevCased then lowerChar c else upperChar c) else c

/-- The stateful pass of Python's `str.title()`. -/
def pyTitleGo : Bool → List Char → List Char
  | _, [] => []
  | b, c :: cs => titleChar b c :: pyTitleGo (isAlphaChar c) cs

/-- Embedding of Python's `str.title()`. -/
def pyTitle (l : List Char) : List Char :=
  pyTitleGo false l

/-- Embedding of `_normalize_entity_name` on character lists:
strip, keep short all-caps strings (acronyms) unchanged, title-case
the rest (source lines 459-478). -/
def normalizeChars (l : List Char) : List Char :=
  let t := pyStrip l
  if t.length ≤ 5 && pyIsUpper t then t else pyTitle t

/-- Embedding of `EntityResolutionService._normalize_entity_name`. -/
def normalizeEntityName (s : String) : String :=
  String.mk (normalizeChars s.data)

/-- Embedding of Python's `str.strip()` on `String`. -/
def pyStripStr (s : String) : String :=
  String.mk (pyStrip s.data)

/-- Embedding of Python's `str.lower()` on `String` (ASCII). -/
def pyLower (s : String) : String :=
  String.mk (s.data.map lowerChar)

/-! ## Similarity scorer: `rapidfuzz.fuzz.token_sort_ratio` -/

/-- Worker for `pySplitWs`; `cur` is the reversed current word. -/
def splitWsGo (cur : List Char) : List Char → List (List Char)
  | [] => if cur.isEmpty then [] else [cur.reverse]
  | c :: cs =>
      if isSpaceChar c then
        if cur.isEmpty then splitWsGo [] cs else cur.reverse :: splitWsGo [] cs
      else splitWsGo (c :: cur) cs

/-- Embedding of Python's `str.split()` (no argument): split on runs of
whitespace, discarding empty tokens. -/
def pySplitWs (l : List Char) : List (List Char) :=
  splitWsGo [] l

/-- Code-point lexicographic order on strings-as-lists, as Python
compares strings. -/
def charListLe : List Char → List Char → Bool
  | [], _ => true
  | _ :: _, [] => false
  | a :: as, b :: bs =>
      if a.toNat < b.toNat then true
      else if b.toNat < a.toNat then false
      else charListLe as bs

/-- Ordered insertion for the token sort. -/
def insertTok (a : List Char) : List (List Char) → List (List Char)
  | [] => [a]
  | b :: bs => if charListLe a b then a :: b :: bs else b :: insertTok a bs

/-- Sorting of the token list, as Python's `sorted`. -/
def sortToks (ts : List (List Char)) : List (List Char) :=
  ts.foldr insertTok []

/-- Join tokens with single spaces, as `" ".join(...)`. -/
def joinSpace : List (List Char) → List Char
  | [] => []
  | [t] => t
  | t :: ts => t ++ ' ' :: joinSpace ts

/-- The token-sorted form of a string: split on whitespace, sort the
tokens, re-join with single spaces.  This is the preprocessing step of
`fuzz.token_sort_ratio`. -/
def tokenSortKey (l : List Char) : List Char :=
  joinSpace (sortToks (pySplitWs l))

/-- One row-update of the longest-common-subsequence table.  The
previous row is `diag :: r :: rs`; `left` is the entry just written in
the new row. -/
def lcsRowGo (a : Char) : List Char → List Nat → Nat → List Nat
  | b :: bs, diag :: r :: rs, left =>
      let v := if a == b then diag + 1 else Nat.max left r
      v :: lcsRowGo a bs (r :: rs) v
  | _, _, _ => []

/-- Length of the longest common subsequence, by the standard dynamic
program (needed to evaluate Indel similarity on concrete inputs). -/
def lcsLen (as bs : List Char) : Nat :=
  (as.foldl (fun row a => 0 :: lcsRowGo a bs row 0)
    (List.replicate (bs.length + 1) 0)).getLastD 0

/-- Normalized Indel similarity scaled to 0-100, which is what
`rapidfuzz.fuzz.ratio` computes: `100 * (1 - dist/(m+n))` with
`dist = m + n - 2*lcs`. -/
def indelSim (a b : List Char) : ℚ :=
  if a.length + b.length = 0 then 100
  else mkRat (200 * lcsLen a b) (a.length + b.length)

/-- Embedding of `rapidfuzz.fuzz.token_sort_ratio` (no extra processor,
as the service calls it): Indel similarity of the token-sorted forms. -/
def tokenSortScore (s1 s2 : String) : ℚ :=
  indelSim (tokenSortKey s1.data) (tokenSortKey s2.data)

/-- One comparison step of `rapidfuzz.process.extractOne`: a later
choice replaces the incumbent only on a strictly greater score. -/
def extractStep (q : String) (best : Option (String × ℚ)) (c : String) :
    Option (String × ℚ) :=
  match best with
  | none => some (c, tokenSortScore q c)
  | some (b, s) =>
      if tokenSortScore q c > s then some (c, tokenSortScore q c)
      else some (b, s)

/-- Embedding of `rapidfuzz.process.extractOne` (default score cutoff):
score every choice, keep the first choice attaining the maximal score;
`none` exactly when there are no choices. -/
def extractOne (q : String) (choices : List String) : Option (String × ℚ) :=
  choices.foldl (extractStep q) none

/-! ## Data model and store primitives -/

/-- One record of the `occurrences` array of a canonical-entity
document (`models/entity.py`, `EntityOccurrence`). -/
structure EntityOccurrence where
  call_id : String
  raw_name : String
  entity_type : String
  mentions : Nat
  context : Option String
  extracted_at : Nat
deriving DecidableEq, Repr

/-- A canonical-entity document of the `entities` collection
(`models/entity.py`, `CanonicalEntity`; enrichment fields that the
resolution path only ever writes as constant `None`/empty are
omitted, see the header comment). -/
structure CanonicalEntity where
  entity_id : Nat
  canonical_name : String
  entity_type : String
  aliases : List String
  first_seen : Nat
  last_seen : Nat
  total_mentions : Nat
  call_count : Nat
  occurrences : List EntityOccurrence
  created_at : Nat
  updated_at : Nat
deriving DecidableEq, Repr

/-- The `entities` collection, as an insertion-ordered document list. -/
abbrev Store := List CanonicalEntity

/-- `find_one({'canonical_name': key, 'entity_type': ty})`: first
document matching the exact-match key. -/
def findOneExact (store : Store) (key ty : String) : Option CanonicalEntity :=
  store.find? (fun e => e.canonical_name == key && e.entity_type == ty)

/-- `find({'entity_type': ty})`: all documents of one type, in
collection order. -/
def findByType (store : Store) (ty : String) : Store :=
  store.filter (fun e => e.entity_type == ty)

/-- `update_one({'entity_id': eid}, ...)`: apply `f` to the first
document with the given id, as one atomic store operation. -/
def updateOne : Store → Nat → (CanonicalEntity → CanonicalEntity) → Store
  | [], _, _ => []
  | e :: es, eid, f =>
      if e.entity_id == eid then f e :: es else e :: updateOne es eid f

/-- `insert_one`: append a document (no uniqueness constraint exists on
the collection). -/
def insertOne (store : Store) (e : CanonicalEntity) : Store :=
  store ++ [e]

/-! ## Resolution engine -/

/-- The candidate list built by `_fuzzy_match_entity` (source lines
298-311): for each entity of the type, its canonical name followed by
its normalized aliases, in collection order.  The same pairs populate
the `entity_map` dict, so a later pair overwrites an earlier one with
the same string. -/
def candidatePairs (entities : Store) : List (String × CanonicalEntity) :=
  (entities.map (fun e =>
    (e.canonical_name, e) ::
      e.aliases.map (fun a => (normalizeEntityName a, e)))).flatten

/-- Lookup in the `entity_map` dict: the value of the most recent
insertion with the given key. -/
def dictLookup (pairs : List (String × CanonicalEntity)) (k : String) :
    Option CanonicalEntity :=
  (pairs.reverse.find? (fun p => p.1 == k)).map (fun p => p.2)

/-- Embedding of `_fuzzy_match_entity` (source lines 275-336): score the
normalized name against every candidate string of the same type, take
`extractOne`'s winner, and accept it when its score reaches the
threshold. -/
def fuzzyMatchEntity (store : Store) (threshold : ℚ) (name ty : String) :
    Option (CanonicalEntity × ℚ) :=
  let existing := findByType store ty
  if existing.isEmpty then none
  else
    let pairs := candidatePairs existing
    match extractOne name (pairs.map (fun p => p.1)) with
    | none => none
    | some (best, score) =>
        if score ≥ threshold then
          match dictLookup pairs best with
          | some e => some (e, score)
          | none => none
        else none

/-- The occurrence record pushed by `_add_entity_occurrence`. -/
def mkOccurrence (call_id raw_name ty : String) (mentions : Nat)
    (context : Option String) (now : Nat) : EntityOccurrence :=
  { call_id := call_id, raw_name := raw_name, entity_type := ty,
    mentions := mentions, context := context, extracted_at := now }

/-- The document transformation of `_add_entity_occurrence`'s single
`update_one`: `$push` the occurrence, `$set` `last_seen`/`updated_at`,
`$inc` `total_mentions` by `mentions` and `call_count` by 1. -/
def applyOccurrence (occ : EntityOccurrence) (mentions now : Nat)
    (e : CanonicalEntity) : CanonicalEntity :=
  { e with
    occurrences := e.occurrences ++ [occ],
    last_seen := now,
    updated_at := now,
    total_mentions := e.total_mentions + mentions,
    call_count := e.call_count + 1 }

/-- Embedding of `_add_entity_occurrence` (source lines 407-452): one
conditional write keyed by `entity_id`. -/
def addEntityOccurrence (store : Store) (eid : Nat)
    (call_id raw_name ty : String) (mentions : Nat)
    (context : Option String) (now : Nat) : Store :=
  updateOne store eid
    (applyOccurrence (mkOccurrence call_id raw_name ty mentions context now)
      mentions now)

/-- The alias write of the fuzzy branch (source lines 242-250): if the
raw name is not case-insensitively among the matched snapshot's
aliases, `$addToSet` it on the current document (exact-membership
append) and `$set` `updated_at`. -/
def addAliasIfMissing (store : Store) (snap : CanonicalEntity)
    (rawName : String) (now : Nat) : Store :=
  if (snap.aliases.map pyLower).contains (pyLower rawName) then store
  else
    updateOne store snap.entity_id (fun e =>
      { e with
        aliases :=
          if e.aliases.contains rawName then e.aliases
          else e.aliases ++ [rawName],
        updated_at := now })

/-- The document built by `_create_canonical_entity` (source lines
338-405). -/
def createCanonicalEntity (key ty call_id rawName : String)
    (mentions : Nat) (context : Option String) (now freshId : Nat) :
    CanonicalEntity :=
  { entity_id := freshId,
    canonical_name := key,
    entity_type := ty,
    aliases := if rawName ≠ key then [rawName] else [],
    first_seen := now,
    last_seen := now,
    total_mentions := mentions,
    call_count := 1,
    occurrences := [mkOccurrence call_id rawName ty mentions context now],
    created_at := now,
    updated_at := now }

/-- The outcome of the matching phase of
`_find_or_create_canonical_entity`, computed from a store snapshot. -/
inductive MatchDecision where
  | exactHit (e : CanonicalEntity)
  | fuzzyHit (e : CanonicalEntity) (score : ℚ)
  | noMatch
deriving DecidableEq

/-- The read phase of `_find_or_create_canonical_entity` (source lines
194-227): exact match on the normalized key, else fuzzy match. -/
def matchStep (snap : Store) (threshold : ℚ) (key ty : String) :
    MatchDecision :=
  match findOneExact snap key ty with
  | some e => .exactHit e
  | none =>
      match fuzzyMatchEntity snap threshold key ty with
      | some (e, s) => .fuzzyHit e s
      | none => .noMatch

/-- What one `_find_or_create_canonical_entity` call returns: the new
store plus the `(canonical_entity, match_info)` pair (the entity is the
snapshot document, as in the source). -/
structure ResolveOutcome where
  store : Store
  entity : CanonicalEntity
  is_new : Bool
  similarity_score : ℚ
  match_method : String
deriving DecidableEq

/-- The write phase of `_find_or_create_canonical_entity`, applied to
the current store: record the occurrence (and possibly an alias) on a
hit, insert a fresh document on no match. -/
def applyStep (cur : Store) (d : MatchDecision)
    (key ty call_id rawName : String) (mentions : Nat)
    (context : Option String) (now freshId : Nat) : ResolveOutcome :=
  match d with
  | .exactHit e =>
      { store := addEntityOccurrence cur e.entity_id call_id rawName ty
          mentions context now,
        entity := e, is_new := false, similarity_score := 100,
        match_method := "exact" }
  | .fuzzyHit e s =>
      let s1 := addEntityOccurrence cur e.entity_id call_id rawName ty
        mentions context now
      { store := addAliasIfMissing s1 e rawName now,
        entity := e, is_new := false, similarity_score := s,
        match_method := "fuzzy" }
  | .noMatch =>
      let e := createCanonicalEntity key ty call_id rawName mentions
        context now freshId
      { store := insertOne cur e, entity := e, is_new := true,
        similarity_score := 100, match_method := "new" }

/-- `_find_or_create_canonical_entity` with its reads taken against
`snap` and its writes applied to `cur`.  The source performs the reads
and the writes as separate store operations, so under concurrency
another worker's writes may land in between; `snap = cur` is the
sequential case. -/
def findOrCreateWithSnapshot (snap cur : Store) (threshold : ℚ)
    (call_id rawName ty : String) (mentions : Nat)
    (context : Option String) (now freshId : Nat) : ResolveOutcome :=
  let key := normalizeEntityName rawName
  applyStep cur (matchStep snap threshold key ty) key ty call_id rawName
    mentions context now freshId

/-- Embedding of `_find_or_create_canonical_entity` (source lines
171-273), sequential execution. -/
def resolveMention (store : Store) (threshold : ℚ)
    (call_id rawName ty : String) (mentions : Nat)
    (context : Option String) (now freshId : Nat) : ResolveOutcome :=
  findOrCreateWithSnapshot store store threshold call_id rawName ty
    mentions context now freshId

/-! ## Per-call orchestration (`resolve_entities_for_call`) -/

/-- One raw extracted-entity dict from AI analysis; `none` models a
missing key. -/
structure RawMentionDict where
  name : Option String
  type : Option String
  mentions : Option Nat
  context : Option String
deriving DecidableEq, Repr

/-- One row of `entity_mappings` (source lines 119-126). -/
structure EntityMapping where
  raw_name : String
  canonical_id : Nat
  canonical_name : String
  entity_type : String
  similarity_score : ℚ
  match_method : String
deriving DecidableEq

/-- The per-call result (`models/entity.py`,
`EntityResolutionResult`; wall-clock timing and the `confidence_scores`
map derived from `entity_mappings` are omitted). -/
structure EntityResolutionResult where
  call_id : String
  raw_entities_count : Nat
  resolved_entities_count : Nat
  new_entities_created : Nat
  entity_mappings : List EntityMapping
deriving DecidableEq

/-- Loop state of `resolve_entities_for_call`: the store, the next
fresh id, and the accumulators of source lines 82-84. -/
structure CallState where
  store : Store
  nextId : Nat
  mappings : List EntityMapping
  newCount : Nat
  resolvedCount : Nat
deriving DecidableEq

/-- One iteration of the loop of `resolve_entities_for_call` (source
lines 94-137): read the dict with defaults (`name` defaults to the
empty string, `type` to `EntityType.OTHER = "other"`, `mentions` to 1,
`context` to nothing), skip blank names, otherwise resolve and
accumulate one mapping row and the counters. -/
def processMention (threshold : ℚ) (call_id : String) (now : Nat)
    (st : CallState) (d : RawMentionDict) : CallState :=
  let entityName := pyStripStr (d.name.getD "")
  let entityType := d.type.getD "other"
  let mentions := d.mentions.getD 1
  if entityName == "" then st
  else
    let out := resolveMention st.store threshold call_id entityName
      entityType mentions d.context now st.nextId
    { store := out.store,
      nextId := st.nextId + 1,
      mappings := st.mappings ++
        [{ raw_name := entityName,
           canonical_id := out.entity.entity_id,
           canonical_name := out.entity.canonical_name,
           entity_type := entityType,
           similarity_score := out.similarity_score,
           match_method := out.match_method }],
      newCount := st.newCount + (if out.is_new then 1 else 0),
      resolvedCount := st.resolvedCount + (if out.is_new then 0 else 1) }

/-- Embedding of `resolve_entities_for_call` (source lines 52-169):
fold the loop over the extracted entities and assemble the result. -/
def resolveEntitiesForCall (store : Store) (threshold : ℚ)
    (call_id : String) (extracted : List RawMentionDict)
    (now startId : Nat) : CallState × EntityResolutionResult :=
  let final := extracted.foldl (processMention threshold call_id now)
    { store := store, nextId := startId, mappings := [], newCount := 0,
      resolvedCount := 0 }
  (final,
    { call_id := call_id,
      raw_entities_count := extracted.length,
      resolved_entities_count := final.resolvedCount,
      new_entities_created := final.newCount,
      entity_mappings := final.mappings })

/-! ## Auxiliary definitions used by the statements -/

/-- The §4.1 Name Normalizer as the specification words it: trim
surrounding whitespace; if the trimmed string is at most 5 characters
and entirely upper-case, return it unchanged; otherwise return it in
title case.  Stated on `String` to compare with the code's
`normalizeEntityName`. -/
def specNormalize (s : String) : String :=
  let t := pyStripStr s
  if t.length ≤ 5 ∧ pyIsUpper t.data then t else String.mk (pyTitle t.data)

/-- Number of distinct calls contributing an occurrence to an entity. -/
def distinctCallCount (e : CanonicalEntity) : Nat :=
  (e.occurrences.map (fun o => o.call_id)).dedup.length

/-- One mention-resolution job, used to state properties of sequences
of sequential resolutions spanning several calls. -/
structure MentionJob where
  call_id : String
  rawName : String
  ty : String
  mentions : Nat
  context : Option String
  now : Nat
  freshId : Nat
deriving DecidableEq, Repr

/-- Sequentially resolve a list of mention jobs against the store. -/
def runJobs (threshold : ℚ) (store : Store) (jobs : List MentionJob) :
    Store :=
  jobs.foldl
    (fun s j =>
      (resolveMention s threshold j.call_id j.rawName j.ty j.mentions
        j.context j.now j.freshId).store)
    store

/-- The alias bookkeeping invariant that actually holds on the code's
reachable entities: aliases are pairwise distinct case-insensitively,
no alias is (exactly) the canonical name, and the canonical name is
normalized. -/
def EntityInv (e : CanonicalEntity) : Prop :=
  e.aliases.Pairwise (fun a b => pyLower a ≠ pyLower b) ∧
  (∀ a ∈ e.aliases, a ≠ e.canonical_name) ∧
  normalizeEntityName e.canonical_name = e.canonical_name

/-- A mention dict with its missing keys replaced by the defaults the
loop of `resolve_entities_for_call` applies. -/
def fillDefaults (d : RawMentionDict) : RawMentionDict :=
  { name := some (d.name.getD ""),
    type := some (d.type.getD "other"),
    mentions := some (d.mentions.getD 1),
    context := d.context }

/-- Tied fuzzy candidate with the smaller `total_mentions`, first in
collection order. -/
def tieFirst : CanonicalEntity :=
  { entity_id := 0, canonical_name := "Abcdefghix", entity_type := "person",
    aliases := [], first_seen := 0, last_seen := 0, total_mentions := 1,
    call_count := 1, occurrences := [], created_at := 0, updated_at := 0 }

/-- Tied fuzzy candidate with the greater `total_mentions`, second in
collection order. -/
def tieSecond : CanonicalEntity :=
  { entity_id := 1, canonical_name := "Abcdefghiy", entity_type := "person",
    aliases := [], first_seen := 0, last_seen := 0, total_mentions := 5,
    call_count := 1, occurrences := [], created_at := 0, updated_at := 0 }

/-- Concrete entity used to instantiate sequence properties. -/
def seqEntity : CanonicalEntity :=
  { entity_id := 0, canonical_name := "John Smith",
    entity_type := "person", aliases := [], first_seen := 7,
    last_seen := 7, total_mentions := 1, call_count := 1,
    occurrences := [⟨"c0", "John Smith", "person", 1, none, 7⟩],
    created_at := 7, updated_at := 7 }

/-- Three exact-match mention jobs for `seqEntity` spanning two
distinct calls. -/
def seqJobs : List MentionJob :=
  [MentionJob.mk "c1" "john smith" "person" 2 none 8 5,
   MentionJob.mk "c1" "JOHN SMITH" "person" 3 none 9 6,
   MentionJob.mk "c2" "John Smith" "person" 4 none 10 7]

/-- The counter invariant of the per-call loop: the running counters
agree with the accumulated mapping rows. -/
def CountInv (st : CallState) : Prop :=
  st.newCount =
    (st.mappings.filter (fun m => m.match_method == "new")).length ∧
  st.resolvedCount =
    (st.mappings.filter (fun m =>
      m.match_method == "exact" || m.match_method == "fuzzy")).length

/-! ## Sanity checks of the embedding -/

example : normalizeEntityName "IBM" = "IBM" := by decide
example : normalizeEntityName "john smith" = "John Smith" := by decide
example : normalizeEntityName "  john smith  " = "John Smith" := by decide
example : normalizeEntityName "JOHN SMITH" = "John Smith" := by decide
example : normalizeEntityName "" = "" := by decide
example : tokenSortScore "John Smith" "Smith John" = 100 := by decide
example : tokenSortScore "Abcdefghiz" "Abcdefghix" = 90 := by decide
example : tokenSortScore "" "" = 100 := by decide

/-- Sequential resolution is the race-free instance of the
snapshot-split embedding. -/
theorem resolveMention_eq_snapshot (store : Store) (threshold : ℚ)
    (call_id rawName ty : String) (mentions : Nat)
    (context : Option String) (now freshId : Nat) :
    resolveMention store threshold call_id rawName ty mentions context
        now freshId =
      findOrCreateWithSnapshot store store threshold call_id rawName ty
        mentions context now freshId := rfl

end EntityRes

namespace EntityRes

/-! ### Character lemmas -/

theorem toNat_ofNat_valid (n : Nat) (h : n.isValidChar) :
    (Char.ofNat n).toNat = n := by
  simp [Char.ofNat, h, Char.ofNatAux, Char.toNat, UInt32.toNat, UInt32.ofNatCore]

theorem isUpperChar_iff (c : Char) :
    isUpperChar c = true ↔ 65 ≤ c.toNat ∧ c.toNat ≤ 90 := by
  simp [isUpperChar]

theorem isLowerChar_iff (c : Char) :
    isLowerChar c = true ↔ 97 ≤ c.toNat ∧ c.toNat ≤ 122 := by
  simp [isLowerChar]

theorem lowerChar_toNat (c : Char) (h : isUpperChar c = true) :
    (lowerChar c).toNat = c.toNat + 32 := by
  have hb := (isUpperChar_iff c).mp h
  have hv : (c.toNat + 32).isValidChar := Or.inl (by omega)
  simp [lowerChar, h, toNat_ofNat_valid _ hv]

theorem upperChar_toNat (c : Char) (h : isLowerChar c = true) :
    (upperChar c).toNat = c.toNat - 32 := by
  have hb := (isLowerChar_iff c).mp h
  have hv : (c.toNat - 32).isValidChar := Or.inl (by omega)
  simp [upperChar, h, toNat_ofNat_valid _ hv]

theorem isAlpha_lowerChar (c : Char) :
    isAlphaChar (lowerChar c) = isAlphaChar c := by
  cases hu : isUpperChar c with
  | true =>
      have h1 := (isUpperChar_iff c).mp hu
      have h2 := lowerChar_toNat c hu
      have h3 : isLowerChar (lowerChar c) = true :=
        (isLowerChar_iff _).mpr (by rw [h2]; omega)
      simp [isAlphaChar, h3, hu]
  | false => simp [lowerChar, hu]

theorem isAlpha_upperChar (c : Char) :
    isAlphaChar (upperChar c) = isAlphaChar c := by
  cases hl : isLowerChar c with
  | true =>
      have h1 := (isLowerChar_iff c).mp hl
      have h2 := upperChar_toNat c hl
      have h3 : isUpperChar (upperChar c) = true :=
        (isUpperChar_iff _).mpr (by rw [h2]; omega)
      simp [isAlphaChar, h3, hl]
  | false => simp [upperChar, hl]

theorem lowerChar_lowerChar (c : Char) :
    lowerChar (lowerChar c) = lowerChar c := by
  cases hu : isUpperChar c with
  | true =>
      have h1 := (isUpperChar_iff c).mp hu
      have h2 := lowerChar_toNat c hu
      have h3 : isUpperChar (lowerChar c) = false := by
        rw [Bool.eq_false_iff]
        intro hcon
        have := (isUpperChar_iff _).mp hcon
        omega
      conv_lhs => rw [lowerChar, h3]
      simp
  | false =>
      have he : lowerChar c = c := by simp [lowerChar, hu]
      rw [he, he]

theorem upperChar_upperChar (c : Char) :
    upperChar (upperChar c) = upperChar c := by
  cases hl : isLowerChar c with
  | true =>
      have h1 := (isLowerChar_iff c).mp hl
      have h2 := upperChar_toNat c hl
      have h3 : isLowerChar (upperChar c) = false := by
        rw [Bool.eq_false_iff]
        intro hcon
        have := (isLowerChar_iff _).mp hcon
        omega
      conv_lhs => rw [upperChar, h3]
      simp
  | false =>
      have he : upperChar c = c := by simp [upperChar, hl]
      rw [he, he]

theorem isSpace_lowerChar (c : Char) :
    isSpaceChar (lowerChar c) = isSpaceChar c := by
  cases hu : isUpperChar c with
  | true =>
      have h1 := (isUpperChar_iff c).mp hu
      have h2 := lowerChar_toNat c hu
      simp only [isSpaceChar, h2, decide_eq_decide]
      omega
  | false => simp [lowerChar, hu]

theorem isSpace_upperChar (c : Char) :
    isSpaceChar (upperChar c) = isSpaceChar c := by
  cases hl : isLowerChar c with
  | true =>
      have h1 := (isLowerChar_iff c).mp hl
      have h2 := upperChar_toNat c hl
      simp only [isSpaceChar, h2, decide_eq_decide]
      omega
  | false => simp [upperChar, hl]

theorem isAlpha_titleChar (b : Bool) (c : Char) :
    isAlphaChar (titleChar b c) = isAlphaChar c := by
  cases ha : isAlphaChar c with
  | true =>
      cases b <;>
        simp [titleChar, ha, isAlpha_lowerChar, isAlpha_upperChar]
  | false => simp [titleChar, ha]

theorem titleChar_titleChar (b : Bool) (c : Char) :
    titleChar b (titleChar b c) = titleChar b c := by
  cases ha : isAlphaChar c with
  | true =>
      cases b <;>
        simp [titleChar, ha, isAlpha_lowerChar, isAlpha_upperChar,
          lowerChar_lowerChar, upperChar_upperChar]
  | false => simp [titleChar, ha]

theorem isSpace_titleChar (b : Bool) (c : Char) :
    isSpaceChar (titleChar b c) = isSpaceChar c := by
  cases ha : isAlphaChar c with
  | true =>
      cases b <;>
        simp [titleChar, ha, isSpace_lowerChar, isSpace_upperChar]
  | false => simp [titleChar, ha]

theorem pyTitleGo_idem (l : List Char) :
    ∀ b, pyTitleGo b (pyTitleGo b l) = pyTitleGo b l := by
  induction l with
  | nil => intro b; rfl
  | cons c cs ih =>
      intro b
      simp only [pyTitleGo, titleChar_titleChar, isAlpha_titleChar]
      rw [ih]

/-! ### Strip lemmas -/

theorem head_dropLead (l : List Char) (c : Char)
    (h : (dropLead l).head? = some c) : isSpaceChar c = false := by
  induction l with
  | nil => simp [dropLead] at h
  | cons d ds ih =>
      rw [dropLead, List.dropWhile_cons] at h
      cases hs : isSpaceChar d with
      | true => rw [hs] at h; simp at h; exact ih (by rwa [dropLead])
      | false => rw [hs] at h; simp at h; rwa [← h]

theorem dropLead_eq_self (l : List Char)
    (h : ∀ c, l.head? = some c → isSpaceChar c = false) :
    dropLead l = l := by
  cases l with
  | nil => rfl
  | cons d ds =>
      have hd := h d rfl
      rw [dropLead, List.dropWhile_cons, hd]
      simp

theorem dropLead_length_le (l : List Char) :
    (dropLead l).length ≤ l.length := by
  induction l with
  | nil => simp [dropLead]
  | cons d ds ih =>
      rw [dropLead, List.dropWhile_cons]
      cases hs : isSpaceChar d with
      | true =>
          simp only [if_pos rfl]
          rw [dropLead] at ih
          simp
          omega
      | false => simp

theorem dropTrail_length_le (l : List Char) :
    (dropTrail l).length ≤ l.length := by
  induction l with
  | nil => simp [dropTrail]
  | cons d ds ih =>
      rw [dropTrail]
      split
      · simp
      · simpa using ih

theorem dropLead_length_eq (l : List Char)
    (h : (dropLead l).length = l.length) : dropLead l = l := by
  cases l with
  | nil => rfl
  | cons d ds =>
      rw [dropLead, List.dropWhile_cons] at h ⊢
      cases hs : isSpaceChar d with
      | true =>
          rw [hs] at h
          have hle := dropLead_length_le ds
          rw [dropLead] at hle
          simp at h
          omega
      | false => simp

theorem dropTrail_idem (l : List Char) :
    dropTrail (dropTrail l) = dropTrail l := by
  induction l with
  | nil => rfl
  | cons d ds ih =>
      rw [dropTrail]
      split
      · rfl
      · next hcond =>
          rw [dropTrail, ih]
          simp only [if_neg hcond]

theorem dropTrail_append_exists (l : List Char) :
    ∃ t, l = dropTrail l ++ t := by
  induction l with
  | nil => exact ⟨[], rfl⟩
  | cons d ds ih =>
      obtain ⟨t, ht⟩ := ih
      rw [dropTrail]
      split
      · exact ⟨d :: ds, rfl⟩
      · exact ⟨t, by rw [List.cons_append]; exact congrArg (d :: ·) ht⟩

theorem getLast_cons_ne_nil (x : Char) (xs : List Char) (hne : xs ≠ []) :
    (x :: xs).getLast? = xs.getLast? := by
  cases xs with
  | nil => exact absurd rfl hne
  | cons y ys => rw [List.getLast?_cons_cons]

theorem getLast_dropTrail (l : List Char) (c : Char)
    (h : (dropTrail l).getLast? = some c) : isSpaceChar c = false := by
  induction l with
  | nil => simp [dropTrail] at h
  | cons d ds ih =>
      rw [dropTrail] at h
      split at h
      · simp at h
      · next hcond =>
          cases he : dropTrail ds with
          | nil =>
              rw [he] at h hcond
              simp at h hcond
              rwa [← h]
          | cons y ys =>
              rw [he] at h
              rw [getLast_cons_ne_nil d (y :: ys) (by simp)] at h
              exact ih (by rw [he]; exact h)

theorem dropTrail_eq_self (l : List Char)
    (h : ∀ c, l.getLast? = some c → isSpaceChar c = false) :
    dropTrail l = l := by
  induction l with
  | nil => rfl
  | cons d ds ih =>
      cases ds with
      | nil =>
          have hd := h d (by simp)
          simp [dropTrail, hd]
      | cons y ys =>
          have hrec : dropTrail (y :: ys) = y :: ys := by
            apply ih
            intro c hc
            exact h c (by rwa [getLast_cons_ne_nil d (y :: ys) (by simp)])
          rw [dropTrail]
          simp only [hrec]
          simp

theorem pyStrip_idem (l : List Char) : pyStrip (pyStrip l) = pyStrip l := by
  rw [pyStrip, pyStrip]
  have hlead : dropLead (dropTrail (dropLead l)) = dropTrail (dropLead l) := by
    apply dropLead_eq_self
    intro c hc
    cases hd : dropTrail (dropLead l) with
    | nil => rw [hd] at hc; simp at hc
    | cons y ys =>
        rw [hd] at hc
        simp at hc
        obtain ⟨t, ht⟩ := dropTrail_append_exists (dropLead l)
        apply head_dropLead l
        rw [ht, hd]
        simp [hc]
  rw [hlead, dropTrail_idem]

/-! ### Normalizer idempotence -/

theorem strip_eq_self_split (t : List Char) (h : pyStrip t = t) :
    dropLead t = t ∧ dropTrail t = t := by
  rw [pyStrip] at h
  have h1 : (dropLead t).length ≤ t.length := dropLead_length_le t
  have h2 : (dropTrail (dropLead t)).length ≤ (dropLead t).length :=
    dropTrail_length_le _
  have h3 := congrArg List.length h
  have hlen : (dropLead t).length = t.length := by omega
  have hl : dropLead t = t := dropLead_length_eq t hlen
  rw [hl] at h
  exact ⟨hl, h⟩

theorem pyTitleGo_head_class (b : Bool) (l : List Char) :
    ((pyTitleGo b l).head?.map isSpaceChar) = (l.head?.map isSpaceChar) := by
  cases l with
  | nil => rfl
  | cons c cs => simp [pyTitleGo, isSpace_titleChar]

theorem pyTitleGo_ne_nil (b : Bool) (l : List Char) (h : l ≠ []) :
    pyTitleGo b l ≠ [] := by
  cases l with
  | nil => exact absurd rfl h
  | cons c cs => simp [pyTitleGo]

theorem pyTitleGo_last_class (l : List Char) :
    ∀ b, ((pyTitleGo b l).getLast?.map isSpaceChar) =
      (l.getLast?.map isSpaceChar) := by
  induction l with
  | nil => intro b; rfl
  | cons c cs ih =>
      intro b
      cases cs with
      | nil => simp [pyTitleGo, isSpace_titleChar]
      | cons y ys =>
          rw [pyTitleGo,
            getLast_cons_ne_nil _ _ (pyTitleGo_ne_nil _ _ (by simp)),
            getLast_cons_ne_nil c (y :: ys) (by simp)]
          exact ih _

theorem pyStrip_pyTitle (t : List Char) (h : pyStrip t = t) :
    pyStrip (pyTitle t) = pyTitle t := by
  obtain ⟨hl, hr⟩ := strip_eq_self_split t h
  rw [pyStrip]
  have h1 : dropLead (pyTitle t) = pyTitle t := by
    apply dropLead_eq_self
    intro c hc
    have hhc := pyTitleGo_head_class false t
    rw [pyTitle] at hc
    rw [hc] at hhc
    cases hh : t.head? with
    | none => rw [hh] at hhc; simp at hhc
    | some d =>
        rw [hh] at hhc; simp at hhc
        have hd : isSpaceChar d = false := by
          apply head_dropLead t
          rw [hl]; exact hh
        rw [hhc]; exact hd
  rw [h1]
  apply dropTrail_eq_self
  intro c hc
  have hlc := pyTitleGo_last_class t false
  rw [pyTitle] at hc
  rw [hc] at hlc
  cases hh : t.getLast? with
  | none => rw [hh] at hlc; simp at hlc
  | some d =>
      rw [hh] at hlc; simp at hlc
      have hd : isSpaceChar d = false := by
        apply getLast_dropTrail t
        rw [hr]; exact hh
      rw [hlc]; exact hd

theorem pyTitle_idem (t : List Char) : pyTitle (pyTitle t) = pyTitle t :=
  pyTitleGo_idem t false

theorem normalizeChars_eq (l : List Char) :
    normalizeChars l =
      if (pyStrip l).length ≤ 5 && pyIsUpper (pyStrip l) then pyStrip l
      else pyTitle (pyStrip l) := rfl

theorem normalizeChars_idem (l : List Char) :
    normalizeChars (normalizeChars l) = normalizeChars l := by
  rw [normalizeChars_eq l]
  split
  · next hcond =>
      rw [normalizeChars_eq, pyStrip_idem]
      rw [if_pos hcond]
  · next hcond =>
      have hst : pyStrip (pyTitle (pyStrip l)) = pyTitle (pyStrip l) :=
        pyStrip_pyTitle _ (pyStrip_idem l)
      rw [normalizeChars_eq, hst]
      split
      · rfl
      · exact pyTitle_idem (pyStrip l)

/-! ### Claims C7 and C8: the Name Normalizer -/

theorem specNormalize_eq (s : String) :
    specNormalize s =
      if (pyStripStr s).length ≤ 5 ∧ pyIsUpper (pyStripStr s).data then
        pyStripStr s
      else String.mk (pyTitle (pyStripStr s).data) := rfl

/-- C7: `_normalize_entity_name` trims surrounding whitespace, returns
the trimmed string unchanged when it is at most 5 characters and
entirely upper-case, and returns it title-cased otherwise — i.e. it
coincides with the spec's §4.1 Name Normalizer on every input string.
Both sides are total Lean functions, so the "total and pure, no error
conditions" part is inherent in the statement. -/
theorem claim_C7_normalizer_follows_spec (s : String) :
    normalizeEntityName s = specNormalize s := by
  rw [normalizeEntityName, normalizeChars_eq, specNormalize_eq]
  have hdata : (pyStripStr s).data = pyStrip s.data := rfl
  have hlen : (pyStripStr s).length = (pyStrip s.data).length := rfl
  rw [hdata, hlen]
  by_cases h : (pyStrip s.data).length ≤ 5 ∧ pyIsUpper (pyStrip s.data) = true
  · rw [if_pos h, if_pos (by simp [h.1, h.2])]
    rfl
  · rw [if_neg h, if_neg (by simp only [Bool.and_eq_true, decide_eq_true_eq]; exact h)]

/-- C8: normalization is idempotent:
`Normalize(Normalize(x)) = Normalize(x)` for every string `x`. -/
theorem claim_C8_normalize_idempotent (s : String) :
    normalizeEntityName (normalizeEntityName s) = normalizeEntityName s := by
  show String.mk (normalizeChars (normalizeChars s.data)) =
    String.mk (normalizeChars s.data)
  exact congrArg String.mk (normalizeChars_idem s.data)

/-! ### Claim C1: the concurrent-creation race -/

/-- C1: the exact-match creation path is a naive read-then-write with
no uniqueness constraint; in the interleaving where both workers
perform their reads before either write, two concurrent resolutions of
the never-before-seen mention ("John Smith", person) leave TWO
`CanonicalEntity` documents for the key, one carrying each call's
occurrence — not the single converged entity the claim requires. -/
theorem claim_C1_race_creates_duplicate :
    ((findOrCreateWithSnapshot []
        (findOrCreateWithSnapshot [] [] 85 "call-A" "John Smith" "person"
          1 none 10 0).store
        85 "call-B" "John Smith" "person" 1 none 11 1).store.map
      (fun e => (e.entity_id, e.canonical_name, e.entity_type,
        e.occurrences.map (fun o => o.call_id)))) =
      [(0, "John Smith", "person", ["call-A"]),
       (1, "John Smith", "person", ["call-B"])] ∧
    ((findOrCreateWithSnapshot []
        (findOrCreateWithSnapshot [] [] 85 "call-A" "John Smith" "person"
          1 none 10 0).store
        85 "call-B" "John Smith" "person" 1 none 11 1).store.filter
      (fun e => e.canonical_name == "John Smith" &&
        e.entity_type == "person")).length = 2 := by
  constructor <;> decide

/-! ### Claim C2: `call_count` semantics -/

/-- C2 counterexample: resolving two mentions of the same entity from
the SAME call (`M = 1` distinct call, `N = 2` mentions with counts 2
and 2) ends with `call_count = 2`, not `M = 1`; the number of distinct
contributing calls is 1, and `call_count` equals the occurrence count
even though the two occurrences belong to the same call. -/
theorem claim_C2_counterexample :
    ((resolveEntitiesForCall [] 85 "c1"
      [⟨some "John Smith", some "person", some 2, none⟩,
       ⟨some "John Smith", some "person", some 2, none⟩] 7 0).1.store.map
      (fun e => (e.call_count, distinctCallCount e, e.total_mentions,
        e.occurrences.length))) = [(2, 1, 4, 2)] := by decide

/-! ### Claim C3: fuzzy-match selection and tie-breaking -/

/-- C3 counterexample: both candidates score 90 against the query
"Abcdefghiz" (a tie at or above the threshold 85), the second
candidate has the strictly greater `total_mentions`, yet the matcher
returns the FIRST candidate in collection order — not the one the
claim's tie-break (greater `total_mentions`) requires. -/
theorem claim_C3_counterexample :
    tokenSortScore "Abcdefghiz" tieFirst.canonical_name = 90 ∧
    tokenSortScore "Abcdefghiz" tieSecond.canonical_name = 90 ∧
    tieSecond.total_mentions > tieFirst.total_mentions ∧
    (90 : ℚ) ≥ 85 ∧
    fuzzyMatchEntity [tieFirst, tieSecond] 85 "Abcdefghiz" "person" =
      some (tieFirst, 90) :=
  ⟨by decide, by decide, by decide, by decide, by decide⟩

/-! ### Claim C6: the alias bookkeeping -/

/-- C6 counterexample: creating an entity from the all-caps raw name
"JOHNNY" (6 characters, so not kept as an acronym) stores canonical
name "Johnny" with alias "JOHNNY" — an alias that is case-insensitively
equal to the canonical name, contradicting the claim that no alias is
case-insensitively equal to `canonical_name`. -/
theorem claim_C6_counterexample :
    (resolveMention [] 85 "c1" "JOHNNY" "person" 1 none 3 0).store =
      [{ entity_id := 0, canonical_name := "Johnny",
         entity_type := "person", aliases := ["JOHNNY"], first_seen := 3,
         last_seen := 3, total_mentions := 1, call_count := 1,
         occurrences := [⟨"c1", "JOHNNY", "person", 1, none, 3⟩],
         created_at := 3, updated_at := 3 }] ∧
    pyLower "JOHNNY" = pyLower "Johnny" := by
  constructor <;> decide

theorem foldl_extract_keep (q : String) (l : List String) (b : String)
    (s : ℚ) (h : ∀ x ∈ l, tokenSortScore q x ≤ s) :
    l.foldl (extractStep q) (some (b, s)) = some (b, s) := by
  induction l with
  | nil => rfl
  | cons x xs ih =>
      have hx := h x (by simp)
      rw [List.foldl_cons,
        show extractStep q (some (b, s)) x = some (b, s) from by
          rw [extractStep, if_neg (not_lt.mpr hx)]]
      exact ih (fun y hy => h y (by simp [hy]))

theorem foldl_extract_improve (q : String) (l1 : List String)
    (c : String) (l2 : List String) :
    ∀ (b : String) (s : ℚ), s < tokenSortScore q c →
      (∀ x ∈ l1, tokenSortScore q x < tokenSortScore q c) →
      (l1 ++ c :: l2).foldl (extractStep q) (some (b, s)) =
        l2.foldl (extractStep q) (some (c, tokenSortScore q c)) := by
  induction l1 with
  | nil =>
      intro b s hs _
      rw [List.nil_append, List.foldl_cons,
        show extractStep q (some (b, s)) c =
          some (c, tokenSortScore q c) from by
            rw [extractStep, if_pos hs]]
  | cons x xs ih =>
      intro b s hs hall
      rw [List.cons_append, List.foldl_cons]
      have hx := hall x (by simp)
      by_cases hgt : tokenSortScore q x > s
      · rw [show extractStep q (some (b, s)) x =
            some (x, tokenSortScore q x) from by
              rw [extractStep, if_pos hgt]]
        exact ih _ _ hx (fun y hy => hall y (by simp [hy]))
      · rw [show extractStep q (some (b, s)) x = some (b, s) from by
            rw [extractStep, if_neg hgt]]
        exact ih _ _ hs (fun y hy => hall y (by simp [hy]))

theorem extractOne_first_max (q : String) (l1 : List String) (c : String)
    (l2 : List String)
    (hbefore : ∀ x ∈ l1, tokenSortScore q x < tokenSortScore q c)
    (hafter : ∀ x ∈ l2, tokenSortScore q x ≤ tokenSortScore q c) :
    extractOne q (l1 ++ c :: l2) = some (c, tokenSortScore q c) := by
  cases l1 with
  | nil =>
      rw [extractOne, List.nil_append, List.foldl_cons,
        show extractStep q none c = some (c, tokenSortScore q c) from rfl]
      exact foldl_extract_keep q l2 _ _ hafter
  | cons x xs =>
      rw [extractOne, List.cons_append, List.foldl_cons,
        show extractStep q none x = some (x, tokenSortScore q x) from rfl,
        foldl_extract_improve q xs c l2 _ _ (hbefore x (by simp))
          (fun y hy => hbefore y (by simp [hy]))]
      exact foldl_extract_keep q l2 _ _ hafter

theorem find_skip {α : Type} (p : α → Bool) (m rest : List α)
    (h : ∀ x ∈ m, p x = false) :
    (m ++ rest).find? p = rest.find? p := by
  induction m with
  | nil => rfl
  | cons x xs ih =>
      rw [List.cons_append,
        List.find?_cons_of_neg _ (by simp [h x (by simp)])]
      exact ih (fun y hy => h y (by simp [hy]))

theorem dictLookup_last (p1 p2 : List (String × CanonicalEntity))
    (c : String) (e : CanonicalEntity) (h2 : ∀ x ∈ p2, x.1 ≠ c) :
    dictLookup (p1 ++ (c, e) :: p2) c = some e := by
  rw [dictLookup, List.reverse_append, List.reverse_cons,
    List.append_assoc,
    find_skip _ p2.reverse _
      (fun x hx => by
        simp only [beq_eq_false_iff_ne, ne_eq]
        exact h2 x (List.mem_reverse.mp hx)),
    List.singleton_append,
    List.find?_cons_of_pos _ (by simp)]
  rfl

/-- C3 amended: the fuzzy matcher scores the normalized name against
every candidate string of the type and returns the highest score, but
ties are broken by FIRST position in the candidate list (collection
order, each entity's canonical name before its normalized aliases) — a
later tying candidate never displaces an earlier one — and the winning
string is resolved through the candidate map, so it yields the entity
that most recently contributed that exact string. -/
theorem claim_C3_amended_first_of_maximal (store : Store) (threshold : ℚ)
    (q ty : String) (p1 p2 : List (String × CanonicalEntity))
    (c : String) (e : CanonicalEntity)
    (hsplit : candidatePairs (findByType store ty) = p1 ++ (c, e) :: p2)
    (hbefore : ∀ x ∈ p1, tokenSortScore q x.1 < tokenSortScore q c)
    (hafter : ∀ x ∈ p2, tokenSortScore q x.1 ≤ tokenSortScore q c)
    (hlast : ∀ x ∈ p2, x.1 ≠ c)
    (hth : threshold ≤ tokenSortScore q c) :
    fuzzyMatchEntity store threshold q ty =
      some (e, tokenSortScore q c) := by
  have hne : (findByType store ty).isEmpty = false := by
    cases hfe : findByType store ty with
    | nil => rw [hfe] at hsplit; simp [candidatePairs] at hsplit
    | cons a as => rfl
  rw [fuzzyMatchEntity]
  simp only [hne, Bool.false_eq_true, if_false, hsplit]
  rw [List.map_append, List.map_cons]
  rw [extractOne_first_max q _ c _
    (by intro x hx
        simp only [List.mem_map] at hx
        obtain ⟨y, hy, rfl⟩ := hx
        exact hbefore y hy)
    (by intro x hx
        simp only [List.mem_map] at hx
        obtain ⟨y, hy, rfl⟩ := hx
        exact hafter y hy)]
  show (if tokenSortScore q c ≥ threshold then
      match dictLookup (p1 ++ (c, e) :: p2) c with
      | some e => some (e, tokenSortScore q c)
      | none => none
    else none) = some (e, tokenSortScore q c)
  rw [if_pos (show tokenSortScore q c ≥ threshold from hth),
    dictLookup_last p1 p2 c e hlast]

/-- Witness for the amended C3 theorem: on the two tied candidates the
first one in collection order wins. -/
theorem claim_C3_amended_witness :
    fuzzyMatchEntity [tieFirst, tieSecond] 85 "Abcdefghiz" "person" =
      some (tieFirst, tokenSortScore "Abcdefghiz" "Abcdefghix") :=
  claim_C3_amended_first_of_maximal [tieFirst, tieSecond] 85 "Abcdefghiz"
    "person" [] [("Abcdefghiy", tieSecond)] "Abcdefghix" tieFirst
    (by decide) (by simp) (by decide) (by decide) (by decide)

theorem findOneExact_single (e : CanonicalEntity) (key ty : String)
    (h1 : e.canonical_name = key) (h2 : e.entity_type = ty) :
    findOneExact [e] key ty = some e := by
  rw [findOneExact]
  apply List.find?_cons_of_pos
  simp [h1, h2]

theorem resolveMention_exact_single (threshold : ℚ) (e : CanonicalEntity)
    (call_id rawName ty : String) (mentions : Nat)
    (context : Option String) (now freshId : Nat)
    (hname : normalizeEntityName rawName = e.canonical_name)
    (hty : ty = e.entity_type) :
    resolveMention [e] threshold call_id rawName ty mentions context now
        freshId =
      { store := [applyOccurrence
          (mkOccurrence call_id rawName ty mentions context now) mentions
          now e],
        entity := e, is_new := false, similarity_score := 100,
        match_method := "exact" } := by
  rw [resolveMention, findOrCreateWithSnapshot]
  rw [show matchStep [e] threshold (normalizeEntityName rawName) ty =
      MatchDecision.exactHit e from by
    rw [matchStep, findOneExact_single e _ _ hname.symm hty.symm]]
  rw [applyStep, addEntityOccurrence, updateOne]
  simp

theorem runJobs_cons (threshold : ℚ) (store : Store) (j : MentionJob)
    (js : List MentionJob) :
    runJobs threshold store (j :: js) =
      runJobs threshold
        ((resolveMention store threshold j.call_id j.rawName j.ty
          j.mentions j.context j.now j.freshId).store) js := by
  rw [runJobs, runJobs, List.foldl_cons]

theorem headD_congr {α : Type} (l : List α) (a b : α) (h : l ≠ []) :
    l.headD a = l.headD b := by
  cases l with
  | nil => exact absurd rfl h
  | cons x xs => rfl

/-- C2 amended: after sequentially resolving `N` mentions of the same
entity (each an exact match on its key) across any calls with
mention-counts `m_1..m_N`, `total_mentions` grows by `sum(m_i)` as the
claim states, but `call_count` grows by `N` — once per OCCURRENCE, not
per distinct call — so `call_count = len(occurrences)` always, even
when several occurrences belong to the same call. -/
theorem claim_C2_amended_call_count_per_occurrence (threshold : ℚ)
    (e : CanonicalEntity) (jobs : List MentionJob)
    (h : ∀ j ∈ jobs, normalizeEntityName j.rawName = e.canonical_name ∧
      j.ty = e.entity_type) :
    (runJobs threshold [e] jobs).length = 1 ∧
    ((runJobs threshold [e] jobs).headD e).total_mentions =
      e.total_mentions + (jobs.map MentionJob.mentions).sum ∧
    ((runJobs threshold [e] jobs).headD e).call_count =
      e.call_count + jobs.length ∧
    ((runJobs threshold [e] jobs).headD e).occurrences.length =
      e.occurrences.length + jobs.length := by
  induction jobs generalizing e with
  | nil => simp [runJobs]
  | cons j js ih =>
      obtain ⟨hn, ht⟩ := h j (by simp)
      rw [runJobs_cons,
        resolveMention_exact_single threshold e j.call_id j.rawName j.ty
          j.mentions j.context j.now j.freshId hn ht]
      dsimp only
      have ih2 := ih
        (applyOccurrence
          (mkOccurrence j.call_id j.rawName j.ty j.mentions j.context
            j.now) j.mentions j.now e)
        (fun x hx => by
          obtain ⟨a, b⟩ := h x (by simp [hx])
          exact ⟨by simpa [applyOccurrence] using a,
            by simpa [applyOccurrence] using b⟩)
      obtain ⟨i1, i2, i3, i4⟩ := ih2
      have hne : runJobs threshold
          [applyOccurrence
            (mkOccurrence j.call_id j.rawName j.ty j.mentions j.context
              j.now) j.mentions j.now e] js ≠ [] := by
        intro hnil
        rw [hnil] at i1
        simp at i1
      refine ⟨i1, ?_, ?_, ?_⟩
      · rw [headD_congr _ e _ hne, i2]
        simp [applyOccurrence]
        omega
      · rw [headD_congr _ e _ hne, i3]
        simp [applyOccurrence]
        omega
      · rw [headD_congr _ e _ hne, i4]
        simp [applyOccurrence]
        omega

/-- Witness for the amended C2 theorem: three exact-match mentions of
the "John Smith" person entity, two of them from the same call, leave
`total_mentions = 1 + (2 + 3 + 4) = 10` and
`call_count = occurrences = 4` although only 3 distinct calls
contributed. -/
theorem claim_C2_amended_witness :
    (runJobs 85 [seqEntity] seqJobs).length = 1 ∧
    ((runJobs 85 [seqEntity] seqJobs).headD seqEntity).total_mentions = 10 ∧
    ((runJobs 85 [seqEntity] seqJobs).headD seqEntity).call_count = 4 ∧
    ((runJobs 85 [seqEntity] seqJobs).headD seqEntity).occurrences.length
      = 4 :=
  claim_C2_amended_call_count_per_occurrence 85 seqEntity seqJobs
    (by decide)

/-! ### Claims C4 and C5: occurrence recording and entity creation -/

theorem updateOne_append (pre post : Store) (e : CanonicalEntity)
    (eid : Nat) (f : CanonicalEntity → CanonicalEntity)
    (hid : e.entity_id = eid) :
    ∀ _ : (∀ x ∈ pre, x.entity_id ≠ eid),
      updateOne (pre ++ e :: post) eid f = pre ++ f e :: post := by
  induction pre with
  | nil =>
      intro _
      rw [List.nil_append, updateOne, if_pos (by simp [hid]),
        List.nil_append]
  | cons x xs ih =>
      intro hpre
      rw [List.cons_append, updateOne,
        if_neg (by simp [hpre x (by simp)]), List.cons_append,
        ih (fun y hy => hpre y (by simp [hy]))]

/-- C4: when a mention matches an existing canonical entity, recording
the occurrence is one conditional write keyed by `entity_id` (the
embedding of the single `update_one` with `$push`/`$set`/`$inc`): on a
store containing the target, it appends
`{call_id, raw_name, entity_type, mentions, context, extracted_at=now}`
to that entity's `occurrences`, sets `last_seen = now` (and
`updated_at`), adds `mentions` to `total_mentions` and 1 to
`call_count`, and leaves every other document unchanged — the new
counters are derived inside the write from the stored document, never
from a separately read copy. -/
theorem claim_C4_occurrence_single_write (pre post : Store)
    (e : CanonicalEntity) (eid : Nat) (call_id rawName ty : String)
    (mentions : Nat) (context : Option String) (now : Nat)
    (hid : e.entity_id = eid)
    (hpre : ∀ x ∈ pre, x.entity_id ≠ eid) :
    addEntityOccurrence (pre ++ e :: post) eid call_id rawName ty
        mentions context now =
      pre ++
        { e with
          occurrences := e.occurrences ++
            [{ call_id := call_id, raw_name := rawName,
               entity_type := ty, mentions := mentions,
               context := context, extracted_at := now }],
          last_seen := now,
          updated_at := now,
          total_mentions := e.total_mentions + mentions,
          call_count := e.call_count + 1 } :: post := by
  rw [addEntityOccurrence, updateOne_append pre post e eid _ hid hpre]
  rfl

/-- Witness for C4 at a concrete store. -/
theorem claim_C4_witness :
    (tieFirst.entity_id = 0 ∧ ∀ x ∈ [tieSecond], x.entity_id ≠ 0) ∧
    addEntityOccurrence [tieSecond, tieFirst] 0 "c9" "abc" "person" 3
        (some "ctx") 42 =
      [tieSecond] ++
        { tieFirst with
          occurrences := tieFirst.occurrences ++
            [{ call_id := "c9", raw_name := "abc",
               entity_type := "person", mentions := 3,
               context := some "ctx", extracted_at := 42 }],
          last_seen := 42,
          updated_at := 42,
          total_mentions := tieFirst.total_mentions + 3,
          call_count := tieFirst.call_count + 1 } :: [] :=
  ⟨⟨by decide, by decide⟩,
    claim_C4_occurrence_single_write [tieSecond] [] tieFirst 0 "c9" "abc"
      "person" 3 (some "ctx") 42 (by decide) (by decide)⟩

/-- C5: when a mention has neither an exact nor an accepted fuzzy
match, resolution appends exactly one new `CanonicalEntity` with the
freshly supplied id, `canonical_name` equal to the normalized key,
`aliases = [name]` when the raw name differs from the key and `[]`
otherwise, a single occurrence for the call, `total_mentions =
mentions`, `call_count = 1`, `first_seen = last_seen = now`, and
reports `match_method = "new"` with score 100. -/
theorem claim_C5_no_match_creates (store : Store) (threshold : ℚ)
    (call_id rawName ty : String) (mentions : Nat)
    (context : Option String) (now freshId : Nat)
    (hexact : findOneExact store (normalizeEntityName rawName) ty = none)
    (hfuzzy : fuzzyMatchEntity store threshold
      (normalizeEntityName rawName) ty = none) :
    resolveMention store threshold call_id rawName ty mentions context
        now freshId =
      { store := store ++
          [{ entity_id := freshId,
             canonical_name := normalizeEntityName rawName,
             entity_type := ty,
             aliases :=
               if rawName ≠ normalizeEntityName rawName then [rawName]
               else [],
             first_seen := now, last_seen := now,
             total_mentions := mentions, call_count := 1,
             occurrences := [{ call_id := call_id,
                               raw_name := rawName,
                               entity_type := ty,
                               mentions := mentions,
                               context := context,
                               extracted_at := now }],
             created_at := now, updated_at := now }],
        entity :=
          { entity_id := freshId,
            canonical_name := normalizeEntityName rawName,
            entity_type := ty,
            aliases :=
              if rawName ≠ normalizeEntityName rawName then [rawName]
              else [],
            first_seen := now, last_seen := now,
            total_mentions := mentions, call_count := 1,
            occurrences := [{ call_id := call_id,
                              raw_name := rawName,
                              entity_type := ty,
                              mentions := mentions,
                              context := context,
                              extracted_at := now }],
            created_at := now, updated_at := now },
        is_new := true, similarity_score := 100,
        match_method := "new" } := by
  rw [resolveMention, findOrCreateWithSnapshot,
    show matchStep store threshold (normalizeEntityName rawName) ty =
        MatchDecision.noMatch from by
      rw [matchStep, hexact, hfuzzy],
    applyStep]
  rfl

/-- Witness for C5: resolving "john smith" against the empty store
creates the entity with canonical name "John Smith" and the raw
spelling as its only alias. -/
theorem claim_C5_witness :
    (findOneExact [] (normalizeEntityName "john smith") "person" = none ∧
      fuzzyMatchEntity [] 85 (normalizeEntityName "john smith") "person"
        = none) ∧
    resolveMention [] 85 "c1" "john smith" "person" 2 (some "ctx") 4 9 =
      { store := [] ++
          [{ entity_id := 9,
             canonical_name := normalizeEntityName "john smith",
             entity_type := "person",
             aliases :=
               if "john smith" ≠ normalizeEntityName "john smith" then
                 ["john smith"]
               else [],
             first_seen := 4, last_seen := 4, total_mentions := 2,
             call_count := 1,
             occurrences := [{ call_id := "c1",
                               raw_name := "john smith",
                               entity_type := "person",
                               mentions := 2,
                               context := some "ctx",
                               extracted_at := 4 }],
             created_at := 4, updated_at := 4 }],
        entity :=
          { entity_id := 9,
            canonical_name := normalizeEntityName "john smith",
            entity_type := "person",
            aliases :=
              if "john smith" ≠ normalizeEntityName "john smith" then
                ["john smith"]
              else [],
            first_seen := 4, last_seen := 4, total_mentions := 2,
            call_count := 1,
            occurrences := [{ call_id := "c1",
                              raw_name := "john smith",
                              entity_type := "person",
                              mentions := 2,
                              context := some "ctx",
                              extracted_at := 4 }],
            created_at := 4, updated_at := 4 },
        is_new := true, similarity_score := 100,
        match_method := "new" } :=
  ⟨⟨by decide, by decide⟩,
    claim_C5_no_match_creates [] 85 "c1" "john smith" "person" 2
      (some "ctx") 4 9 (by decide) (by decide)⟩

theorem normalizeEntityName_idem (s : String) :
    normalizeEntityName (normalizeEntityName s) = normalizeEntityName s := by
  show String.mk (normalizeChars (normalizeChars s.data)) =
    String.mk (normalizeChars s.data)
  exact congrArg String.mk (normalizeChars_idem s.data)

theorem entityInv_applyOccurrence (occ : EntityOccurrence)
    (mentions now : Nat) (y : CanonicalEntity) (h : EntityInv y) :
    EntityInv (applyOccurrence occ mentions now y) := by
  obtain ⟨h1, h2, h3⟩ := h
  exact ⟨h1, h2, h3⟩

theorem entityInv_addAlias (y : CanonicalEntity) (rawName : String)
    (now : Nat) (h : EntityInv y)
    (hlow : ∀ a ∈ y.aliases, pyLower a ≠ pyLower rawName)
    (hrn : rawName ≠ y.canonical_name) :
    EntityInv { y with
      aliases := if y.aliases.contains rawName then y.aliases
                 else y.aliases ++ [rawName],
      updated_at := now } := by
  obtain ⟨h1, h2, h3⟩ := h
  refine ⟨?_, ?_, h3⟩
  · dsimp only
    split
    · exact h1
    · rw [List.pairwise_append]
      refine ⟨h1, by simp, ?_⟩
      intro a ha b hb
      simp only [List.mem_singleton] at hb
      rw [hb]
      exact hlow a ha
  · dsimp only
    intro a ha
    split at ha
    · exact h2 a ha
    · rcases List.mem_append.mp ha with h' | h'
      · exact h2 a h'
      · simp only [List.mem_singleton] at h'
        rw [h']
        exact hrn

theorem updateOne_forall (store : Store) (eid : Nat)
    (f : CanonicalEntity → CanonicalEntity) (P : CanonicalEntity → Prop)
    (h1 : ∀ y ∈ store, P y)
    (h2 : ∀ y ∈ store, y.entity_id = eid → P (f y)) :
    ∀ x ∈ updateOne store eid f, P x := by
  induction store with
  | nil => intro x hx; simp [updateOne] at hx
  | cons z zs ih =>
      intro x hx
      rw [updateOne] at hx
      by_cases hz : (z.entity_id == eid) = true
      · rw [if_pos hz] at hx
        rcases List.mem_cons.mp hx with rfl | hx'
        · exact h2 z (by simp) (by simpa using hz)
        · exact h1 x (by simp [hx'])
      · rw [if_neg hz] at hx
        rcases List.mem_cons.mp hx with rfl | hx'
        · exact h1 x (by simp)
        · exact ih (fun y hy => h1 y (by simp [hy]))
            (fun y hy hid => h2 y (by simp [hy]) hid) x hx'

theorem updateOne_mem_decomp (store : Store) (eid : Nat)
    (f : CanonicalEntity → CanonicalEntity) :
    ∀ x ∈ updateOne store eid f,
      x ∈ store ∨ ∃ y, y ∈ store ∧ y.entity_id = eid ∧ x = f y := by
  induction store with
  | nil => intro x hx; simp [updateOne] at hx
  | cons z zs ih =>
      intro x hx
      rw [updateOne] at hx
      by_cases hz : (z.entity_id == eid) = true
      · rw [if_pos hz] at hx
        rcases List.mem_cons.mp hx with rfl | hx'
        · exact Or.inr ⟨z, by simp, by simpa using hz, rfl⟩
        · exact Or.inl (by simp [hx'])
      · rw [if_neg hz] at hx
        rcases List.mem_cons.mp hx with rfl | hx'
        · exact Or.inl (by simp)
        · rcases ih x hx' with h | ⟨y, hy, hid, hxy⟩
          · exact Or.inl (by simp [h])
          · exact Or.inr ⟨y, by simp [hy], hid, hxy⟩

theorem candidatePairs_mem (ents : Store) (k : String)
    (e : CanonicalEntity) (h : (k, e) ∈ candidatePairs ents) :
    e ∈ ents := by
  rw [candidatePairs, List.mem_flatten] at h
  obtain ⟨l, hl, hmem⟩ := h
  rw [List.mem_map] at hl
  obtain ⟨ent, hent, rfl⟩ := hl
  rcases List.mem_cons.mp hmem with heq | halias
  · have := congrArg Prod.snd heq
    simp only at this
    rw [this]
    exact hent
  · rw [List.mem_map] at halias
    obtain ⟨a, _, heq⟩ := halias
    have := congrArg Prod.snd heq
    simp only at this
    rw [← this]
    exact hent

theorem dictLookup_some_mem (pairs : List (String × CanonicalEntity))
    (k : String) (e : CanonicalEntity) (h : dictLookup pairs k = some e) :
    ∃ k', (k', e) ∈ pairs := by
  rw [dictLookup] at h
  cases hf : pairs.reverse.find? (fun p => p.1 == k) with
  | none => rw [hf] at h; simp at h
  | some p =>
      rw [hf] at h
      simp only [Option.map_some'] at h
      have hp := List.mem_of_find?_eq_some hf
      rw [List.mem_reverse] at hp
      refine ⟨p.1, ?_⟩
      have h2 : p.2 = e := by injection h
      rw [← h2]
      exact hp

theorem fuzzyMatch_mem (store : Store) (th : ℚ) (name ty : String)
    (e : CanonicalEntity) (s : ℚ)
    (h : fuzzyMatchEntity store th name ty = some (e, s)) :
    e ∈ store ∧ e.entity_type = ty := by
  rw [fuzzyMatchEntity] at h
  by_cases hemp : (findByType store ty).isEmpty = true
  · rw [if_pos hemp] at h
    exact absurd h (by simp)
  · rw [if_neg hemp] at h
    dsimp only at h
    cases hext : extractOne name
        ((candidatePairs (findByType store ty)).map (fun p => p.1)) with
    | none => rw [hext] at h; exact absurd h (by simp)
    | some p =>
        obtain ⟨best, score⟩ := p
        rw [hext] at h
        dsimp only at h
        by_cases hsc : score ≥ th
        · rw [if_pos hsc] at h
          cases hdl : dictLookup (candidatePairs (findByType store ty))
              best with
          | none => rw [hdl] at h; exact absurd h (by simp)
          | some e' =>
              rw [hdl] at h
              dsimp only at h
              have he : e' = e := by
                have := congrArg (fun o => Option.map Prod.fst o) h
                simpa using this
              subst he
              obtain ⟨k', hk⟩ := dictLookup_some_mem _ _ _ hdl
              have hft := candidatePairs_mem _ _ _ hk
              have := List.mem_filter.mp (by
                rw [findByType] at hft
                exact hft)
              exact ⟨this.1, by simpa using this.2⟩
        · rw [if_neg hsc] at h
          exact absurd h (by simp)

theorem matchStep_fuzzy_inv (snap : Store) (th : ℚ) (key ty : String)
    (e : CanonicalEntity) (s : ℚ)
    (h : matchStep snap th key ty = MatchDecision.fuzzyHit e s) :
    findOneExact snap key ty = none ∧
      fuzzyMatchEntity snap th key ty = some (e, s) := by
  rw [matchStep] at h
  cases hf : findOneExact snap key ty with
  | some x => rw [hf] at h; simp at h
  | none =>
      rw [hf] at h
      dsimp only at h
      cases hz : fuzzyMatchEntity snap th key ty with
      | none => rw [hz] at h; simp at h
      | some p =>
          obtain ⟨e', s'⟩ := p
          rw [hz] at h
          dsimp only at h
          injection h with h1 h2
          subst h1
          subst h2
          exact ⟨rfl, rfl⟩

theorem findOneExact_none (store : Store) (key ty : String)
    (h : findOneExact store key ty = none) :
    ∀ x ∈ store, ¬(x.canonical_name = key ∧ x.entity_type = ty) := by
  rw [findOneExact] at h
  intro x hx hcon
  have := List.find?_eq_none.mp h x hx
  simp [hcon.1, hcon.2] at this

/-- C6 amended: on reachable stores (entities satisfy the invariant,
ids are distinct), one resolution step preserves, for every stored
entity: aliases pairwise distinct case-insensitively, no alias EXACTLY
equal to `canonical_name`, and `canonical_name` normalized.  (A
case-variant of the canonical name, such as an all-caps raw spelling,
MAY appear as an alias — only exact equality is excluded; that is the
amendment the counterexample forces.) -/
theorem claim_C6_amended_alias_invariant (store : Store) (threshold : ℚ)
    (call_id rawName ty : String) (mentions : Nat)
    (context : Option String) (now freshId : Nat)
    (hinv : ∀ x ∈ store, EntityInv x)
    (hnd : (store.map CanonicalEntity.entity_id).Nodup) :
    ∀ x ∈ (resolveMention store threshold call_id rawName ty mentions
      context now freshId).store, EntityInv x := by
  rw [resolveMention, findOrCreateWithSnapshot]
  cases hm : matchStep store threshold (normalizeEntityName rawName) ty with
  | exactHit e =>
      simp only [applyStep]
      rw [addEntityOccurrence]
      exact updateOne_forall _ _ _ EntityInv hinv
        (fun y hy _ => entityInv_applyOccurrence _ _ _ y (hinv y hy))
  | fuzzyHit e s =>
      obtain ⟨hex, hfz⟩ := matchStep_fuzzy_inv store threshold _ ty e s hm
      obtain ⟨hmem, htyE⟩ := fuzzyMatch_mem store threshold _ ty e s hfz
      have hinvE := hinv e hmem
      have hrne : rawName ≠ e.canonical_name := by
        intro heq
        apply findOneExact_none store _ ty hex e hmem
        refine ⟨?_, htyE⟩
        rw [heq]
        exact (hinvE.2.2).symm
      simp only [applyStep]
      have hs1 : ∀ x ∈ addEntityOccurrence store e.entity_id call_id
          rawName ty mentions context now, EntityInv x := by
        rw [addEntityOccurrence]
        exact updateOne_forall _ _ _ EntityInv hinv
          (fun y hy _ => entityInv_applyOccurrence _ _ _ y (hinv y hy))
      rw [addAliasIfMissing]
      split
      · exact hs1
      · next hcond =>
          have hlow : ∀ a ∈ e.aliases, pyLower a ≠ pyLower rawName := by
            intro a ha hcontra
            apply hcond
            have hmm : pyLower rawName ∈ e.aliases.map pyLower :=
              List.mem_map.mpr ⟨a, ha, hcontra⟩
            simpa using hmm
          apply updateOne_forall _ _ _ EntityInv hs1
          intro y hy hid
          rcases updateOne_mem_decomp store e.entity_id _ y
              (by rw [addEntityOccurrence] at hy; exact hy) with
            hyS | ⟨z, hzS, hzid, rfl⟩
          · have hye : y = e := List.inj_on_of_nodup_map hnd hyS hmem hid
            rw [hye]
            exact entityInv_addAlias e rawName now hinvE hlow hrne
          · have hze : z = e := List.inj_on_of_nodup_map hnd hzS hmem
              (by simpa using hzid)
            subst hze
            exact entityInv_addAlias _ rawName now
              (entityInv_applyOccurrence _ _ _ z hinvE) hlow hrne
  | noMatch =>
      simp only [applyStep]
      intro x hx
      rw [insertOne] at hx
      rcases List.mem_append.mp hx with hx' | hx'
      · exact hinv x hx'
      · simp only [List.mem_singleton] at hx'
        subst hx'
        refine ⟨?_, ?_, ?_⟩
        · rw [createCanonicalEntity]
          dsimp only
          split
          · simp
          · simp
        · rw [createCanonicalEntity]
          dsimp only
          intro a ha
          split at ha
          · simp only [List.mem_singleton] at ha
            subst ha
            next hne => exact hne
          · simp at ha
        · exact normalizeEntityName_idem rawName

/-- Witness for the amended C6 theorem at a concrete resolution. -/
theorem claim_C6_amended_witness :
    (∀ x ∈ ([] : Store), EntityInv x) ∧
    (([] : Store).map CanonicalEntity.entity_id).Nodup ∧
    ∀ x ∈ (resolveMention [] 85 "c1" "JOHNNY" "person" 1 none 3 0).store,
      EntityInv x :=
  ⟨by simp, by simp,
    claim_C6_amended_alias_invariant [] 85 "c1" "JOHNNY" "person" 1 none
      3 0 (by simp) (by simp)⟩

/-! ### Claims C9 and C10: per-call orchestration -/

theorem resolveMention_cases (store : Store) (threshold : ℚ)
    (call_id rawName ty : String) (mentions : Nat)
    (context : Option String) (now freshId : Nat) :
    ((resolveMention store threshold call_id rawName ty mentions context
        now freshId).is_new = true ∧
      (resolveMention store threshold call_id rawName ty mentions context
        now freshId).match_method = "new") ∨
    ((resolveMention store threshold call_id rawName ty mentions context
        now freshId).is_new = false ∧
      ((resolveMention store threshold call_id rawName ty mentions
          context now freshId).match_method = "exact" ∨
        (resolveMention store threshold call_id rawName ty mentions
          context now freshId).match_method = "fuzzy")) := by
  rw [resolveMention, findOrCreateWithSnapshot]
  cases matchStep store threshold (normalizeEntityName rawName) ty <;>
    simp [applyStep]

theorem countInv_processMention (threshold : ℚ) (call_id : String)
    (now : Nat) (st : CallState) (d : RawMentionDict)
    (h : CountInv st) :
    CountInv (processMention threshold call_id now st d) := by
  rw [processMention]
  dsimp only
  split
  · exact h
  · obtain ⟨h1, h2⟩ := h
    rcases resolveMention_cases st.store threshold call_id
        (pyStripStr (d.name.getD "")) (d.type.getD "other")
        (d.mentions.getD 1) d.context now st.nextId with
      ⟨hn, hm⟩ | ⟨hn, hm | hm⟩ <;>
      constructor <;>
        simp [CountInv, hn, hm, List.filter_append, h1, h2]

theorem processMention_len (threshold : ℚ) (call_id : String) (now : Nat)
    (st : CallState) (d : RawMentionDict) :
    (processMention threshold call_id now st d).mappings.length =
      st.mappings.length +
        (if pyStripStr (d.name.getD "") == "" then 0 else 1) := by
  rw [processMention]
  dsimp only
  split
  · next h => simp [h]
  · next h => simp [h]

theorem c9_fold (threshold : ℚ) (call_id : String) (now : Nat)
    (extracted : List RawMentionDict) :
    ∀ st, CountInv st →
      CountInv (extracted.foldl (processMention threshold call_id now)
        st) ∧
      (extracted.foldl (processMention threshold call_id now)
          st).mappings.length =
        st.mappings.length +
          (extracted.filter (fun d =>
            !(pyStripStr (d.name.getD "") == ""))).length := by
  induction extracted with
  | nil => intro st h; exact ⟨h, by simp⟩
  | cons d ds ih =>
      intro st h
      rw [List.foldl_cons]
      obtain ⟨ih1, ih2⟩ :=
        ih _ (countInv_processMention threshold call_id now st d h)
      refine ⟨ih1, ?_⟩
      rw [ih2, processMention_len, List.filter_cons]
      cases hb : pyStripStr (d.name.getD "") == "" with
      | false => simp [hb]; omega
      | true => simp [hb]

/-- C9: per-call resolution skips every blank-named mention without
failing (the loop is a total fold), produces exactly one
`entity_mappings` row per non-skipped mention, and returns a result
whose `raw_entities_count` is the input length, whose
`new_entities_created` counts the mentions that created a new entity,
and whose `resolved_entities_count` counts the mentions resolved by
exact or fuzzy match. -/
theorem claim_C9_per_call_counts (store : Store) (threshold : ℚ)
    (call_id : String) (extracted : List RawMentionDict)
    (now startId : Nat) :
    (resolveEntitiesForCall store threshold call_id extracted now
        startId).2.raw_entities_count = extracted.length ∧
    (resolveEntitiesForCall store threshold call_id extracted now
        startId).2.entity_mappings.length =
      (extracted.filter (fun d =>
        !(pyStripStr (d.name.getD "") == ""))).length ∧
    (resolveEntitiesForCall store threshold call_id extracted now
        startId).2.new_entities_created =
      ((resolveEntitiesForCall store threshold call_id extracted now
          startId).2.entity_mappings.filter (fun m =>
        m.match_method == "new")).length ∧
    (resolveEntitiesForCall store threshold call_id extracted now
        startId).2.resolved_entities_count =
      ((resolveEntitiesForCall store threshold call_id extracted now
          startId).2.entity_mappings.filter (fun m =>
        m.match_method == "exact" || m.match_method == "fuzzy")).length
    := by
  obtain ⟨⟨c1, c2⟩, clen⟩ := c9_fold threshold call_id now extracted
    { store := store, nextId := startId, mappings := [], newCount := 0,
      resolvedCount := 0 } ⟨rfl, rfl⟩
  rw [resolveEntitiesForCall]
  dsimp only
  refine ⟨rfl, ?_, c1, c2⟩
  rw [clen]
  simp

/-- C10: in the per-call loop, a missing `mentions` key is read as 1, a
missing `type` key as `"other"`, and a missing `context` key as no
context; such a mention is processed exactly as the explicitly filled
dict would be (and is resolved, not rejected: the mapping count still
grows by one whenever its name is non-blank). -/
theorem claim_C10_missing_key_defaults (threshold : ℚ)
    (call_id : String) (now : Nat) (st : CallState)
    (d : RawMentionDict) :
    processMention threshold call_id now st d =
      processMention threshold call_id now st (fillDefaults d) ∧
    (fillDefaults d).name = some (d.name.getD "") ∧
    (fillDefaults d).type = some (d.type.getD "other") ∧
    (fillDefaults d).mentions = some (d.mentions.getD 1) ∧
    (fillDefaults d).context = d.context ∧
    (processMention threshold call_id now st d).mappings.length =
      st.mappings.length +
        (if pyStripStr (d.name.getD "") == "" then 0 else 1) :=
  ⟨rfl, rfl, rfl, rfl, rfl,
    processMention_len threshold call_id now st d⟩

end EntityRes
